import Mathlib

/-!
# csvToDescription: a shallow embedding of `main.go`

The program reads a tab-delimited file, locates the "Name" and "Start"
columns from the header line and writes one `<start before the dot>\t<name>\n`
line per data line.

Go byte slices and strings are lists of bytes.  The operating system is a
small explicit state: the content the input path yields, the content of the
output path, whether `os.Create` fails, and the outcome of each successive
`Write` call.  Input and output are taken to be two different files.
-/

namespace CsvToDescription

abbrev Byte := UInt8

/-- The tab byte, the field delimiter. -/
def TAB : Byte := 9
/-- The newline byte. -/
def NL : Byte := 10
/-- The carriage return byte. -/
def CR : Byte := 13
/-- The dot byte. -/
def DOT : Byte := 46
/-- The path separator of `path/filepath` on Unix. -/
def SLASH : Byte := 47

/-- The bytes of an ASCII string literal. -/
def ascii (s : String) : List Byte := s.toList.map (fun c => c.toNat.toUInt8)

/-! ## Library functions used by the program -/

/-- Go `bytes.Split(s, []byte{sep})` and `strings.Split(s, string(sep))` for a
one-byte separator: the pieces of `s` between the occurrences of `sep`; there
is always one piece more than there are separators. -/
def bytesSplit (sep : Byte) : List Byte → List (List Byte)
  | [] => [[]]
  | c :: cs =>
    if c = sep then [] :: bytesSplit sep cs
    else
      match bytesSplit sep cs with
      | [] => [[c]]
      | piece :: pieces => (c :: piece) :: pieces

/-- Go `bytes.Join(s, sep)`. -/
def bytesJoin : List (List Byte) → List Byte → List Byte
  | [], _ => []
  | [a], _ => a
  | a :: b :: rest, sep => a ++ sep ++ bytesJoin (b :: rest) sep

/-- Go `strings.Contains(s, substr)`: `substr` occurs in `s` at some offset. -/
def stringsContains : List Byte → List Byte → Bool
  | [], substr => substr.isPrefixOf []
  | c :: cs, substr => substr.isPrefixOf (c :: cs) || stringsContains cs substr

/-- Go `filepath.Split(path)` on Unix: scan back from the end while the byte is
not a separator; the directory keeps its final separator. -/
def filepathSplit (path : List Byte) : List Byte × List Byte :=
  ((path.reverse.dropWhile (fun c => c != SLASH)).reverse,
   (path.reverse.takeWhile (fun c => c != SLASH)).reverse)

/-- Go `bufio.MaxScanTokenSize`. -/
def maxScanTokenSize : Nat := 64 * 1024

/-- The helper `dropCR` of `bufio.ScanLines`: drop one final carriage return. -/
def dropCR (data : List Byte) : List Byte :=
  if data.getLast? = some CR then data.dropLast else data

/-- The tokens a `bufio.Scanner` with the default split function `ScanLines`
delivers over `data`, `cur` being the bytes of the line read so far.  A line
ends at a newline or at the end of the data (a final empty line is no token),
loses one trailing carriage return, and scanning stops for good at a line that
does not fit the buffer of `maxScanTokenSize` bytes. -/
def scanFrom : List Byte → List Byte → List (List Byte)
  | [], cur =>
    if cur = [] then []
    else if maxScanTokenSize ≤ cur.length then []
    else [dropCR cur]
  | c :: cs, cur =>
    if c = NL then
      if maxScanTokenSize ≤ cur.length then []
      else dropCR cur :: scanFrom cs []
    else scanFrom cs (cur ++ [c])

/-- All the lines a scanner delivers over a file content. -/
def scanLines (data : List Byte) : List (List Byte) := scanFrom data []

/-- A `*bufio.Scanner`: the tokens not yet delivered and the current token
(`s.Bytes()`). -/
structure Scanner where
  pending : List (List Byte)
  token : List Byte
  deriving DecidableEq, Repr

/-- Go `bufio.NewScanner(file)` over a file of the given content. -/
def Scanner.new (content : List Byte) : Scanner := ⟨scanLines content, []⟩

/-- Go `s.Scan()`: advance to the next token, `false` when there is none. -/
def Scanner.Scan (s : Scanner) : Bool × Scanner :=
  match s.pending with
  | [] => (false, ⟨[], []⟩)
  | t :: ts => (true, ⟨ts, t⟩)

/-- An error of the operating system. -/
structure OSError where
  code : Nat
  deriving DecidableEq, Repr

/-- An `*os.File` open for writing: the content written so far (writes are
unbuffered) and what the next `Write` calls will do: `none` succeeds,
`some (k, e)` fails with `e` after `k` bytes; past the end of the list every
write succeeds. -/
structure OutFile where
  content : List Byte
  faults : List (Option (Nat × OSError))
  deriving DecidableEq, Repr

/-- Go `f.Write(b)`: the file after the call, the number of bytes written and
the error. -/
def OutFile.Write (f : OutFile) (b : List Byte) : OutFile × Nat × Option OSError :=
  match f.faults with
  | [] => (⟨f.content ++ b, []⟩, b.length, none)
  | none :: rest => (⟨f.content ++ b, rest⟩, b.length, none)
  | some (k, e) :: rest => (⟨f.content ++ b.take k, rest⟩, min k b.length, some e)

/-- Go slice indexing `record[i]` with an `int` index: `none` is the run-time
panic "index out of range". -/
def index (record : List (List Byte)) (i : Int) : Option (List Byte) :=
  if i < 0 then none else record[i.toNat]?

/-! ## The functions of `main.go` -/

/-- Source `parseLine`. -/
def parseLine (line : List Byte) : List (List Byte) :=
  bytesSplit TAB line

/-- Source `formatLine`.  `bytes.Split` never returns an empty slice, so
element 0 exists. -/
def formatLine (name start : List Byte) : List Byte :=
  bytesJoin [(bytesSplit DOT start).headD [], name] [TAB]

/-- The loop of source `findIndexOfString`, `i` being the index of the head. -/
def findIndexFrom (matchStr : List Byte) : List (List Byte) → Nat → Int
  | [], _ => -1
  | str :: strs, i =>
    if stringsContains str matchStr then (i : Int)
    else findIndexFrom matchStr strs (i + 1)

/-- Source `findIndexOfString`. -/
def findIndexOfString (strs : List (List Byte)) (matchStr : List Byte) : Int :=
  findIndexFrom matchStr strs 0

/-- Source `getNameAndStartIndexes`. -/
def getNameAndStartIndexes (headers : List Byte) : Int × Int :=
  let columnNamesBytes := parseLine headers
  (findIndexOfString columnNamesBytes (ascii "Name"),
   findIndexOfString columnNamesBytes (ascii "Start"))

/-- Source `genOutputFileName`; `now` is `time.Now().Format(time.RFC3339)`. -/
def genOutputFileName (inputPath now : List Byte) : List Byte :=
  let (dir, file) := filepathSplit inputPath
  let actualName := (bytesSplit DOT file).headD []
  dir ++ actualName ++ ascii "_converted-" ++ now ++ ascii ".txt"

/-- The two errors `exhaustScanner` builds, with the arguments of their format
strings: "Failed to write %d bytes %e" and "Failed to write newLine %d bytes %e". -/
inductive ExhaustError where
  | failedToWrite (written : Nat) (writeErr : OSError)
  | failedToWriteNewLine (written : Nat) (writeErr : OSError)
  deriving DecidableEq, Repr

/-- How a call of `exhaustScanner` ends: it returns its `error` result, or the
run-time panics on a slice index. -/
inductive ExhaustEnd where
  | returned (err : Option ExhaustError)
  | panicked (idx : Int) (length : Nat)
  deriving DecidableEq, Repr

/-- The loop of source `exhaustScanner` over the tokens the scanner still has:
the scanner and the file as the call leaves them, and how it ends. -/
def exhaustFrom (nameIdx startIdx : Int) :
    List (List Byte) → OutFile → Scanner × OutFile × ExhaustEnd
  | [], f => (⟨[], []⟩, f, .returned none)
  | line :: rest, f =>
    let record := parseLine line
    match index record nameIdx with
    | none => (⟨rest, line⟩, f, .panicked nameIdx record.length)
    | some name =>
      match index record startIdx with
      | none => (⟨rest, line⟩, f, .panicked startIdx record.length)
      | some start =>
        let formattedLine := formatLine name start
        match f.Write formattedLine with
        | (f1, written, some writeErr) =>
          (⟨rest, line⟩, f1, .returned (some (.failedToWrite written writeErr)))
        | (f1, _, none) =>
          match f1.Write [NL] with
          | (f2, written, some writeErr) =>
            (⟨rest, line⟩, f2, .returned (some (.failedToWriteNewLine written writeErr)))
          | (f2, _, none) => exhaustFrom nameIdx startIdx rest f2

/-- Source `exhaustScanner`. -/
def exhaustScanner (s : Scanner) (outputFile : OutFile) (nameIdx startIdx : Int) :
    Scanner × OutFile × ExhaustEnd :=
  exhaustFrom nameIdx startIdx s.pending outputFile

/-- What the program sees of the operating system: what opening and reading
the input path yields, the content of the output path (`none`: no such file),
the error of `os.Create` on the output path if it fails, and the outcomes of
the writes to the created file. -/
structure World where
  input : Except OSError (List Byte)
  output : Option (List Byte)
  createErr : Option OSError
  writeFaults : List (Option (Nat × OSError))

/-- Source `createScannerAndLoadWithHeaders`: open the file and scan the
header line. -/
def createScannerAndLoadWithHeaders (w : World) : Except OSError Scanner :=
  match w.input with
  | .error err => .error err
  | .ok content => .ok (Scanner.new content).Scan.2

/-- Source `createOutputFile`: `os.Create` truncates the file or creates it
empty. -/
def createOutputFile (w : World) : Except OSError OutFile × World :=
  match w.createErr with
  | some err => (.error err, w)
  | none => (.ok ⟨[], w.writeFaults⟩, { w with output := some [] })

/-- How the process ends in `runWithScanner`. -/
inductive Exit where
  | returned
  | fatalOS (err : OSError)
  | fatalIndexes (nameIdx startIdx : Int)
  | fatalExhaust (err : ExhaustError)
  | panicked (idx : Int) (length : Nat)
  deriving DecidableEq, Repr

/-- Source `runWithScanner`: the world it leaves and how it ends. -/
def runWithScanner (w : World) : World × Exit :=
  match createScannerAndLoadWithHeaders w with
  | .error err => (w, .fatalOS err)
  | .ok scanr =>
    match createOutputFile w with
    | (.error outputErr, w1) => (w1, .fatalOS outputErr)
    | (.ok outputWriter, w1) =>
      let (nameIdx, startIdx) := getNameAndStartIndexes scanr.token
      if nameIdx = -1 ∨ startIdx = -1 then (w1, .fatalIndexes nameIdx startIdx)
      else
        match exhaustScanner scanr outputWriter nameIdx startIdx with
        | (_, f, .returned (some err)) => ({ w1 with output := some f.content }, .fatalExhaust err)
        | (_, f, .returned none) => ({ w1 with output := some f.content }, .returned)
        | (_, f, .panicked idx len) => ({ w1 with output := some f.content }, .panicked idx len)

/-- A world in which the input holds `content`, the output path holds `old`,
and nothing fails. -/
def World.plain (content : List Byte) (old : Option (List Byte)) : World :=
  ⟨.ok content, old, none, []⟩

/-! ## The lines of a text file, as the input format describes them -/

/-- Drop a final empty piece: the text after a terminating newline is no line. -/
def trimFinal (pieces : List (List Byte)) : List (List Byte) :=
  if pieces.getLast? = some [] then pieces.dropLast else pieces

/-- The lines of a file content as the input format has them, independently of
the scanner: the pieces between the newlines, all the bytes of each piece
kept, the last line needing no newline after it. -/
def specLines (content : List Byte) : List (List Byte) :=
  trimFinal (bytesSplit NL content)

/-- The pieces of a split when the bytes `cur` came before them on the first
line. -/
def joinPending (cur : List Byte) : List (List Byte) → List (List Byte)
  | [] => []
  | piece :: pieces => (cur ++ piece) :: pieces

/-- A data line of two fields, `a` and `maxScanTokenSize` times the byte `b`. -/
def longLine : List Byte := ascii "a" ++ TAB :: List.replicate maxScanTokenSize 98

/-! ## Facts about the library functions -/

theorem bytesSplit_ne_nil (sep : Byte) (s : List Byte) : bytesSplit sep s ≠ [] := by
  cases s with
  | nil => simp [bytesSplit]
  | cons c cs =>
    unfold bytesSplit
    split
    · simp
    · split <;> simp

theorem bytesSplit_cons_sep (sep : Byte) (cs : List Byte) :
    bytesSplit sep (sep :: cs) = [] :: bytesSplit sep cs := by
  simp [bytesSplit]

theorem bytesSplit_cons_ne {sep c : Byte} (h : c ≠ sep) (cs : List Byte) :
    bytesSplit sep (c :: cs)
      = (c :: (bytesSplit sep cs).headD []) :: (bytesSplit sep cs).tail := by
  have hne := bytesSplit_ne_nil sep cs
  rw [bytesSplit, if_neg h]
  cases hs : bytesSplit sep cs with
  | nil => exact absurd hs hne
  | cons piece pieces => simp

theorem bytesSplit_append_sep {sep : Byte} {pre : List Byte} (h : sep ∉ pre) (post : List Byte) :
    bytesSplit sep (pre ++ sep :: post) = pre :: bytesSplit sep post := by
  induction pre with
  | nil => simp [bytesSplit_cons_sep]
  | cons c cs ih =>
    have hc : c ≠ sep := fun e => h (by simp [e])
    have hcs : sep ∉ cs := fun m => h (List.mem_cons_of_mem _ m)
    rw [List.cons_append, bytesSplit_cons_ne hc, ih hcs]
    simp

theorem bytesSplit_of_not_mem {sep : Byte} {s : List Byte} (h : sep ∉ s) :
    bytesSplit sep s = [s] := by
  induction s with
  | nil => simp [bytesSplit]
  | cons c cs ih =>
    have hc : c ≠ sep := fun e => h (by simp [e])
    have hcs : sep ∉ cs := fun m => h (List.mem_cons_of_mem _ m)
    rw [bytesSplit_cons_ne hc, ih hcs]
    simp

theorem not_mem_of_mem_bytesSplit {sep : Byte} {s piece : List Byte}
    (h : piece ∈ bytesSplit sep s) : sep ∉ piece := by
  induction s generalizing piece with
  | nil =>
    simp [bytesSplit] at h
    simp [h]
  | cons c cs ih =>
    by_cases hc : c = sep
    · subst hc
      rw [bytesSplit_cons_sep] at h
      rcases List.mem_cons.1 h with h | h
      · simp [h]
      · exact ih h
    · rw [bytesSplit_cons_ne hc] at h
      have hne := bytesSplit_ne_nil sep cs
      cases hs : bytesSplit sep cs with
      | nil => exact absurd hs hne
      | cons p ps =>
        rw [hs] at h ih
        simp only [List.headD_cons, List.tail_cons] at h
        rcases List.mem_cons.1 h with h | h
        · subst h
          have hp : sep ∉ p := ih (List.mem_cons_self _ _)
          intro hm
          rcases List.mem_cons.1 hm with e | e
          · exact hc e.symm
          · exact hp e
        · exact ih (List.mem_cons_of_mem _ h)

theorem headD_bytesSplit (sep : Byte) (s : List Byte) :
    (bytesSplit sep s).headD [] = s.takeWhile (fun c => c != sep) := by
  induction s with
  | nil => simp [bytesSplit]
  | cons c cs ih =>
    by_cases hc : c = sep
    · subst hc
      simp [bytesSplit_cons_sep]
    · rw [bytesSplit_cons_ne hc, List.takeWhile_cons, ← ih]
      simp [hc]

theorem stringsContains_iff (s substr : List Byte) :
    stringsContains s substr = true ↔ substr <:+: s := by
  induction s with
  | nil => simp [stringsContains]
  | cons c cs ih =>
    rw [stringsContains, Bool.or_eq_true, ih, List.infix_cons_iff, List.isPrefixOf_iff_prefix]

theorem mem_of_index_eq_some {record : List (List Byte)} {i : Int} {x : List Byte}
    (h : index record i = some x) : x ∈ record := by
  unfold index at h
  split at h
  · simp at h
  · exact List.getElem?_mem h

theorem index_natCast (record : List (List Byte)) (n : Nat) :
    index record (n : Int) = record[n]? := by
  simp [index]

theorem findIndexFrom_spec (matchStr : List Byte) (strs : List (List Byte)) (i : Nat) :
    (findIndexFrom matchStr strs i = -1 ∧ ∀ f ∈ strs, ¬ matchStr <:+: f) ∨
    (∃ k : Nat, findIndexFrom matchStr strs i = ((i + k : Nat) : Int) ∧
      (∃ f, strs[k]? = some f ∧ matchStr <:+: f) ∧
      ∀ j, j < k → ∀ g, strs[j]? = some g → ¬ matchStr <:+: g) := by
  induction strs generalizing i with
  | nil => left; simp [findIndexFrom]
  | cons str strs ih =>
    by_cases hc : stringsContains str matchStr = true
    · right
      refine ⟨0, by simp [findIndexFrom, hc], ⟨str, by simp, (stringsContains_iff _ _).1 hc⟩, ?_⟩
      intro j hj
      omega
    · have hn : ¬ matchStr <:+: str := fun h => hc ((stringsContains_iff _ _).2 h)
      rcases ih (i + 1) with ⟨h1, h2⟩ | ⟨k, h1, ⟨f, hf, hm⟩, h3⟩
      · left
        refine ⟨by simp [findIndexFrom, hc, h1], ?_⟩
        intro f hf
        rcases List.mem_cons.1 hf with e | e
        · exact e ▸ hn
        · exact h2 f e
      · right
        refine ⟨k + 1, ?_, ⟨f, by simpa using hf, hm⟩, ?_⟩
        · simp only [findIndexFrom, hc]
          rw [h1]
          simp only [Bool.false_eq_true, if_false]
          congr 1
          omega
        · intro j hj g hg
          cases j with
          | zero =>
            simp at hg
            exact hg ▸ hn
          | succ j =>
            simp at hg
            exact h3 j (by omega) g hg

/-- C1: `formatLine name start` is `t`, a tab, then `name` unchanged, where `t`
is the part of `start` before its first dot when it has one and all of `start`
when it has none. -/
theorem formatLine_spec (name start : List Byte) :
    (∀ pre post : List Byte, start = pre ++ DOT :: post → DOT ∉ pre →
        formatLine name start = pre ++ [TAB] ++ name) ∧
    (DOT ∉ start → formatLine name start = start ++ [TAB] ++ name) := by
  constructor
  · intro pre post hstart hpre
    subst hstart
    simp [formatLine, bytesJoin, bytesSplit_append_sep hpre]
  · intro h
    simp [formatLine, bytesJoin, bytesSplit_of_not_mem h]

theorem formatLine_spec_witness :
    formatLine (ascii "Episode One") (ascii "01:23:45.678")
      = ascii "01:23:45" ++ [TAB] ++ ascii "Episode One" :=
  (formatLine_spec (ascii "Episode One") (ascii "01:23:45.678")).1
    (ascii "01:23:45") (ascii "678") (by decide) (by decide)

theorem findIndexOfString_spec (fields : List (List Byte)) (m : List Byte) :
    ((findIndexOfString fields m = -1 ∧ ∀ f ∈ fields, ¬ m <:+: f) ∨
      (∃ k : Nat, findIndexOfString fields m = (k : Int) ∧
        (∃ f, fields[k]? = some f ∧ m <:+: f) ∧
        ∀ j, j < k → ∀ g, fields[j]? = some g → ¬ m <:+: g)) ∧
    (findIndexOfString fields m = -1 ↔ ∀ f ∈ fields, ¬ m <:+: f) := by
  have h := findIndexFrom_spec m fields 0
  simp only [Nat.zero_add] at h
  refine ⟨h, ?_⟩
  rcases h with ⟨h1, h2⟩ | ⟨k, h1, ⟨f, hf, hm⟩, _⟩
  · exact ⟨fun _ => h2, fun _ => h1⟩
  · constructor
    · intro e
      rw [findIndexOfString, h1] at e
      omega
    · intro hall
      exact absurd hm (hall f (List.getElem?_mem hf))

/-- C2: each component of `getNameAndStartIndexes header` is the least index of
a tab-separated field of the header that contains "Name" (respectively
"Start") as a substring, and is -1 exactly when no field contains it. -/
theorem getNameAndStartIndexes_spec (header : List Byte) :
    ((((getNameAndStartIndexes header).1 = -1 ∧
          ∀ f ∈ bytesSplit TAB header, ¬ ascii "Name" <:+: f) ∨
        (∃ k : Nat, (getNameAndStartIndexes header).1 = (k : Int) ∧
          (∃ f, (bytesSplit TAB header)[k]? = some f ∧ ascii "Name" <:+: f) ∧
          ∀ j, j < k → ∀ g, (bytesSplit TAB header)[j]? = some g → ¬ ascii "Name" <:+: g)) ∧
      ((getNameAndStartIndexes header).1 = -1 ↔
        ∀ f ∈ bytesSplit TAB header, ¬ ascii "Name" <:+: f)) ∧
    ((((getNameAndStartIndexes header).2 = -1 ∧
          ∀ f ∈ bytesSplit TAB header, ¬ ascii "Start" <:+: f) ∨
        (∃ k : Nat, (getNameAndStartIndexes header).2 = (k : Int) ∧
          (∃ f, (bytesSplit TAB header)[k]? = some f ∧ ascii "Start" <:+: f) ∧
          ∀ j, j < k → ∀ g, (bytesSplit TAB header)[j]? = some g → ¬ ascii "Start" <:+: g)) ∧
      ((getNameAndStartIndexes header).2 = -1 ↔
        ∀ f ∈ bytesSplit TAB header, ¬ ascii "Start" <:+: f)) :=
  ⟨findIndexOfString_spec (bytesSplit TAB header) (ascii "Name"),
   findIndexOfString_spec (bytesSplit TAB header) (ascii "Start")⟩

theorem getNameAndStartIndexes_firstName :
    getNameAndStartIndexes (ascii "Id\tFirstName\tName\tRestart\tStart") = (1, 4) ∧
    getNameAndStartIndexes (ascii "name\tSTART") = (-1, -1) := by
  decide

theorem not_mem_takeWhile_bne (sep : Byte) (s : List Byte) :
    sep ∉ s.takeWhile (fun c => c != sep) := by
  intro h
  have := List.mem_takeWhile_imp h
  simp at this

theorem not_mem_takeWhile_of_not_mem {x : Byte} {s : List Byte} (p : Byte → Bool)
    (h : x ∉ s) : x ∉ s.takeWhile p :=
  fun hm => h ((List.takeWhile_prefix p).subset hm)

theorem formatLine_eq (name start : List Byte) :
    formatLine name start = start.takeWhile (fun c => c != DOT) ++ TAB :: name := by
  rw [formatLine, headD_bytesSplit]
  simp [bytesJoin]

/-- C10: for a data line and two indices in range for its record, the output
line built from the two fields has exactly one tab, its first column has no
dot, and parsing it gives back exactly the two fields: the truncated start and
the name. -/
theorem formatLine_wellFormed (line : List Byte) (nameIdx startIdx : Int)
    (name start : List Byte)
    (hn : index (parseLine line) nameIdx = some name)
    (hs : index (parseLine line) startIdx = some start) :
    (formatLine name start).count TAB = 1 ∧
    parseLine (formatLine name start) = [start.takeWhile (fun c => c != DOT), name] ∧
    DOT ∉ start.takeWhile (fun c => c != DOT) := by
  have hname : TAB ∉ name := not_mem_of_mem_bytesSplit (mem_of_index_eq_some hn)
  have hstart : TAB ∉ start := not_mem_of_mem_bytesSplit (mem_of_index_eq_some hs)
  have ht : TAB ∉ start.takeWhile (fun c => c != DOT) :=
    not_mem_takeWhile_of_not_mem _ hstart
  refine ⟨?_, ?_, not_mem_takeWhile_bne DOT start⟩
  · rw [formatLine_eq, List.count_append, List.count_cons_self,
      List.count_eq_zero_of_not_mem ht, List.count_eq_zero_of_not_mem hname]
  · rw [formatLine_eq, parseLine, bytesSplit_append_sep ht, bytesSplit_of_not_mem hname]

theorem formatLine_wellFormed_witness :
    (formatLine (ascii "Episode One") (ascii "01:23:45.678")).count TAB = 1 ∧
    parseLine (formatLine (ascii "Episode One") (ascii "01:23:45.678"))
      = [(ascii "01:23:45.678").takeWhile (fun c => c != DOT), ascii "Episode One"] ∧
    DOT ∉ (ascii "01:23:45.678").takeWhile (fun c => c != DOT) :=
  formatLine_wellFormed (ascii "Episode One\t01:23:45.678\tx") 0 1
    (ascii "Episode One") (ascii "01:23:45.678") (by decide) (by decide)

theorem filepathSplit_append (path : List Byte) :
    (filepathSplit path).1 ++ (filepathSplit path).2 = path := by
  simp only [filepathSplit]
  rw [← List.reverse_append, List.takeWhile_append_dropWhile, List.reverse_reverse]

theorem filepathSplit_file (path : List Byte) : SLASH ∉ (filepathSplit path).2 := by
  simp only [filepathSplit, List.mem_reverse]
  exact not_mem_takeWhile_bne SLASH _

theorem filepathSplit_dir (path : List Byte) :
    (filepathSplit path).1 = [] ∨ (filepathSplit path).1.getLast? = some SLASH := by
  simp only [filepathSplit, List.getLast?_reverse]
  have h := List.head?_dropWhile_not (fun c => c != SLASH) path.reverse
  cases hd : path.reverse.dropWhile (fun c => c != SLASH) with
  | nil => left; rfl
  | cons a t =>
    right
    rw [hd] at h
    simpa using h

theorem filepathSplit_of_parts {d r : List Byte} (hr : SLASH ∉ r)
    (hd : d = [] ∨ d.getLast? = some SLASH) : filepathSplit (d ++ r) = (d, r) := by
  have hall : ∀ a ∈ r.reverse, (fun c => c != SLASH) a = true := by
    intro a ha
    have : a ≠ SLASH := fun e => hr (e ▸ List.mem_reverse.1 ha)
    simpa using this
  have hrev : d.reverse.takeWhile (fun c => c != SLASH) = [] ∧
      d.reverse.dropWhile (fun c => c != SLASH) = d.reverse := by
    rcases hd with h | h
    · subst h
      simp
    · rw [← List.head?_reverse, List.head?_eq_some_iff] at h
      obtain ⟨t, ht⟩ := h
      rw [ht]
      simp
  simp only [filepathSplit, List.reverse_append]
  rw [List.takeWhile_append_of_pos hall, List.dropWhile_append_of_pos hall, hrev.1, hrev.2]
  simp

/-- C7: `genOutputFileName p` with the clock rendered as `now` is
`dir ++ base ++ "_converted-" ++ now ++ ".txt"`, where `p = dir ++ file`, `file`
has no separator, `dir` is empty or ends with the separator (so it is `p` up to
and including its last separator, empty when `p` has none), and `base` is
`file` up to its first dot, all of `file` when it has none; `base` has no
separator, so when the timestamp has none the result splits into the same
directory `dir`. -/
theorem genOutputFileName_spec (p now : List Byte) :
    ∃ dir file base : List Byte,
      p = dir ++ file ∧ SLASH ∉ file ∧
      (dir = [] ∨ dir.getLast? = some SLASH) ∧
      ((DOT ∉ file ∧ base = file) ∨ (∃ post, file = base ++ DOT :: post ∧ DOT ∉ base)) ∧
      genOutputFileName p now
        = dir ++ base ++ ascii "_converted-" ++ now ++ ascii ".txt" ∧
      SLASH ∉ base ∧
      (SLASH ∉ now → (filepathSplit (genOutputFileName p now)).1 = dir) := by
  have hbase : SLASH ∉ (filepathSplit p).2.takeWhile (fun c => c != DOT) :=
    not_mem_takeWhile_of_not_mem _ (filepathSplit_file p)
  have heq : genOutputFileName p now
      = (filepathSplit p).1 ++ (filepathSplit p).2.takeWhile (fun c => c != DOT)
        ++ ascii "_converted-" ++ now ++ ascii ".txt" := by
    simp only [genOutputFileName]
    rw [headD_bytesSplit]
  refine ⟨(filepathSplit p).1, (filepathSplit p).2,
    (filepathSplit p).2.takeWhile (fun c => c != DOT),
    (filepathSplit_append p).symm, filepathSplit_file p, filepathSplit_dir p, ?_, heq, hbase, ?_⟩
  · by_cases hd : DOT ∈ (filepathSplit p).2
    · right
      refine ⟨(filepathSplit p).2.dropWhile (fun c => c != DOT) |>.tail, ?_,
        not_mem_takeWhile_bne DOT _⟩
      have hne : (filepathSplit p).2.dropWhile (fun c => c != DOT) ≠ [] := by
        intro h0
        rw [List.dropWhile_eq_nil_iff] at h0
        have := h0 DOT hd
        simp at this
      have hh := List.head_dropWhile_not (fun c => c != DOT) (filepathSplit p).2 hne
      have hcons : (filepathSplit p).2.dropWhile (fun c => c != DOT)
          = DOT :: ((filepathSplit p).2.dropWhile (fun c => c != DOT)).tail := by
        conv_lhs => rw [← List.head_cons_tail _ hne]
        congr 1
        simpa using hh
      rw [← hcons, List.takeWhile_append_dropWhile]
    · left
      refine ⟨hd, ?_⟩
      rw [List.takeWhile_eq_self_iff]
      intro x hx
      have : x ≠ DOT := fun e => hd (e ▸ hx)
      simpa using this
  · intro hnow
    have hrest : SLASH ∉ (filepathSplit p).2.takeWhile (fun c => c != DOT)
        ++ ascii "_converted-" ++ now ++ ascii ".txt" := by
      have h1 : SLASH ∉ ascii "_converted-" := by decide
      have h2 : SLASH ∉ ascii ".txt" := by decide
      simp only [List.mem_append, not_or]
      exact ⟨⟨⟨hbase, h1⟩, hnow⟩, h2⟩
    rw [heq]
    simp only [List.append_assoc] at hrest ⊢
    rw [filepathSplit_of_parts hrest (filepathSplit_dir p)]

theorem genOutputFileName_spec_witness :
    ∃ dir file base : List Byte,
      ascii "/home/u/see.the.thing.csv" = dir ++ file ∧ SLASH ∉ file ∧
      (dir = [] ∨ dir.getLast? = some SLASH) ∧
      ((DOT ∉ file ∧ base = file) ∨ (∃ post, file = base ++ DOT :: post ∧ DOT ∉ base)) ∧
      genOutputFileName (ascii "/home/u/see.the.thing.csv") (ascii "2024-01-02T03:04:05Z")
        = dir ++ base ++ ascii "_converted-" ++ ascii "2024-01-02T03:04:05Z" ++ ascii ".txt" ∧
      SLASH ∉ base ∧
      (SLASH ∉ ascii "2024-01-02T03:04:05Z" →
        (filepathSplit (genOutputFileName (ascii "/home/u/see.the.thing.csv")
          (ascii "2024-01-02T03:04:05Z"))).1 = dir) :=
  genOutputFileName_spec (ascii "/home/u/see.the.thing.csv") (ascii "2024-01-02T03:04:05Z")

theorem genOutputFileName_example :
    genOutputFileName (ascii "/home/u/podcasts/see.the.thing.csv") (ascii "2024-01-02T03:04:05Z")
      = ascii "/home/u/podcasts/see_converted-2024-01-02T03:04:05Z.txt" ∧
    genOutputFileName (ascii "episodes") (ascii "T") = ascii "episodes_converted-T.txt" := by
  decide

/-! ## Facts about the pipeline -/

theorem Write_ok {f : OutFile} (hf : ∀ x ∈ f.faults, x = none) (b : List Byte) :
    f.Write b = (⟨f.content ++ b, f.faults.tail⟩, b.length, none) := by
  rcases f with ⟨content, faults⟩
  cases faults with
  | nil => simp [OutFile.Write]
  | cons x rest =>
    have hx : x = none := hf x (by simp)
    subst hx
    simp [OutFile.Write]

theorem noFaults_tail {faults : List (Option (Nat × OSError))}
    (hf : ∀ x ∈ faults, x = none) : ∀ x ∈ faults.tail, x = none :=
  fun x hx => hf x (List.mem_of_mem_tail hx)

theorem index_of_lt {record : List (List Byte)} {n : Nat} (h : n < record.length) :
    index record (n : Int) = some (record.getD n []) := by
  rw [index_natCast, List.getD_eq_getElem?_getD, List.getElem?_eq_getElem h]
  rfl

theorem index_of_le {record : List (List Byte)} {n : Nat} (h : record.length ≤ n) :
    index record (n : Int) = none := by
  rw [index_natCast]
  exact List.getElem?_eq_none h

theorem exhaustFrom_panic_name {nameIdx startIdx : Int} {line : List Byte}
    (rest : List (List Byte)) (f : OutFile)
    (hn : index (parseLine line) nameIdx = none) :
    exhaustFrom nameIdx startIdx (line :: rest) f
      = (⟨rest, line⟩, f, .panicked nameIdx (parseLine line).length) := by
  simp only [exhaustFrom, hn]

theorem exhaustFrom_panic_start {nameIdx startIdx : Int} {line name : List Byte}
    (rest : List (List Byte)) (f : OutFile)
    (hn : index (parseLine line) nameIdx = some name)
    (hs : index (parseLine line) startIdx = none) :
    exhaustFrom nameIdx startIdx (line :: rest) f
      = (⟨rest, line⟩, f, .panicked startIdx (parseLine line).length) := by
  simp only [exhaustFrom, hn, hs]

theorem exhaustFrom_write_fail {nameIdx startIdx : Int} {line name start : List Byte}
    (rest : List (List Byte)) {f f1 : OutFile} {written : Nat} {e : OSError}
    (hn : index (parseLine line) nameIdx = some name)
    (hs : index (parseLine line) startIdx = some start)
    (hw : f.Write (formatLine name start) = (f1, written, some e)) :
    exhaustFrom nameIdx startIdx (line :: rest) f
      = (⟨rest, line⟩, f1, .returned (some (.failedToWrite written e))) := by
  simp only [exhaustFrom, hn, hs, hw]

theorem exhaustFrom_newline_fail {nameIdx startIdx : Int} {line name start : List Byte}
    (rest : List (List Byte)) {f f1 f2 : OutFile} {w1 written : Nat} {e : OSError}
    (hn : index (parseLine line) nameIdx = some name)
    (hs : index (parseLine line) startIdx = some start)
    (hw : f.Write (formatLine name start) = (f1, w1, none))
    (hnl : f1.Write [NL] = (f2, written, some e)) :
    exhaustFrom nameIdx startIdx (line :: rest) f
      = (⟨rest, line⟩, f2, .returned (some (.failedToWriteNewLine written e))) := by
  simp only [exhaustFrom, hn, hs, hw, hnl]

theorem exhaustFrom_step {nameIdx startIdx : Int} {line name start : List Byte}
    (rest : List (List Byte)) {f f1 f2 : OutFile} {w1 w2 : Nat}
    (hn : index (parseLine line) nameIdx = some name)
    (hs : index (parseLine line) startIdx = some start)
    (hw : f.Write (formatLine name start) = (f1, w1, none))
    (hnl : f1.Write [NL] = (f2, w2, none)) :
    exhaustFrom nameIdx startIdx (line :: rest) f
      = exhaustFrom nameIdx startIdx rest f2 := by
  simp only [exhaustFrom, hn, hs, hw, hnl]

/-- Once the lines of `pre` have been processed without error, the loop goes
on with what follows them. -/
theorem exhaustFrom_append {nameIdx startIdx : Int} {pre : List (List Byte)}
    {f f' : OutFile} {sc : Scanner}
    (h : exhaustFrom nameIdx startIdx pre f = (sc, f', .returned none))
    (more : List (List Byte)) :
    exhaustFrom nameIdx startIdx (pre ++ more) f = exhaustFrom nameIdx startIdx more f' := by
  induction pre generalizing f with
  | nil =>
    simp only [exhaustFrom, Prod.mk.injEq] at h
    rw [List.nil_append, h.2.1]
  | cons line rest ih =>
    rw [List.cons_append]
    cases hn : index (parseLine line) nameIdx with
    | none => rw [exhaustFrom_panic_name rest f hn] at h; simp at h
    | some name =>
      cases hs : index (parseLine line) startIdx with
      | none => rw [exhaustFrom_panic_start rest f hn hs] at h; simp at h
      | some start =>
        rcases hw : f.Write (formatLine name start) with ⟨f1, w1, _ | e⟩
        · rcases hnl : f1.Write [NL] with ⟨f2, w2, _ | e⟩
          · rw [exhaustFrom_step rest hn hs hw hnl] at h
            rw [exhaustFrom_step (rest ++ more) hn hs hw hnl]
            exact ih h
          · rw [exhaustFrom_newline_fail rest hn hs hw hnl] at h; simp at h
        · rw [exhaustFrom_write_fail rest hn hs hw] at h; simp at h

/-- With no write failing and every line long enough, the loop writes one
formatted line per data line and returns no error. -/
theorem exhaustFrom_ok (n s : Nat) (lines : List (List Byte)) (f : OutFile)
    (hf : ∀ x ∈ f.faults, x = none)
    (hlen : ∀ l ∈ lines, max n s < (parseLine l).length) :
    ∃ f' : OutFile, exhaustFrom n s lines f = (⟨[], []⟩, f', .returned none) ∧
      f'.content = f.content ++ lines.flatMap (fun l =>
        formatLine ((parseLine l).getD n []) ((parseLine l).getD s []) ++ [NL]) ∧
      ∀ x ∈ f'.faults, x = none := by
  induction lines generalizing f with
  | nil => exact ⟨f, by simp [exhaustFrom], by simp, hf⟩
  | cons line rest ih =>
    have hl := hlen line (List.mem_cons_self _ _)
    have hn := index_of_lt (show n < (parseLine line).length by omega)
    have hs := index_of_lt (show s < (parseLine line).length by omega)
    have hw := Write_ok hf (formatLine ((parseLine line).getD n []) ((parseLine line).getD s []))
    have hf1 := noFaults_tail hf
    have hnl := Write_ok (f := ⟨f.content ++ formatLine ((parseLine line).getD n [])
      ((parseLine line).getD s []), f.faults.tail⟩) hf1 [NL]
    obtain ⟨f', h1, h2, h3⟩ := ih
      ⟨f.content ++ formatLine ((parseLine line).getD n []) ((parseLine line).getD s []) ++ [NL],
        f.faults.tail.tail⟩ (noFaults_tail hf1)
      (fun l hl => hlen l (List.mem_cons_of_mem _ hl))
    refine ⟨f', ?_, ?_, h3⟩
    · rw [exhaustFrom_step rest hn hs hw hnl]
      exact h1
    · rw [h2]
      simp

theorem dropCR_subset (data : List Byte) : dropCR data ⊆ data := by
  unfold dropCR
  split
  · exact List.dropLast_subset data
  · exact fun _ h => h

theorem not_mem_scanFrom (data cur : List Byte) (hcur : NL ∉ cur) :
    ∀ t ∈ scanFrom data cur, NL ∉ t := by
  induction data generalizing cur with
  | nil =>
    intro t ht
    unfold scanFrom at ht
    split at ht
    · simp at ht
    · split at ht
      · simp at ht
      · rw [List.mem_singleton] at ht
        exact ht ▸ fun h => hcur (dropCR_subset cur h)
  | cons c cs ih =>
    intro t ht
    unfold scanFrom at ht
    split at ht
    · split at ht
      · simp at ht
      · rcases List.mem_cons.1 ht with e | e
        · exact e ▸ fun h => hcur (dropCR_subset cur h)
        · exact ih [] (by simp) t e
    · rename_i hc
      refine ih (cur ++ [c]) ?_ t ht
      intro hm
      rcases List.mem_append.1 hm with e | e
      · exact hcur e
      · exact hc (List.mem_singleton.1 e).symm

/-- No line a scanner delivers holds a newline. -/
theorem not_mem_scanLines {data t : List Byte} (h : t ∈ scanLines data) : NL ∉ t :=
  not_mem_scanFrom data [] (by simp) t h

theorem scanFrom_line {l : List Byte} (h : NL ∉ l) (cur rest : List Byte) :
    scanFrom (l ++ NL :: rest) cur
      = if maxScanTokenSize ≤ (cur ++ l).length then []
        else dropCR (cur ++ l) :: scanFrom rest [] := by
  induction l generalizing cur with
  | nil => simp [scanFrom]
  | cons c cs ih =>
    have hc : c ≠ NL := fun e => h (by simp [e])
    have hcs : NL ∉ cs := fun m => h (List.mem_cons_of_mem _ m)
    rw [List.cons_append, scanFrom, if_neg hc, ih hcs]
    simp

/-- A file made of newline-terminated lines, none holding a newline, ending in
a carriage return or reaching the token limit, is scanned as those lines. -/
theorem scanLines_terminated (lines : List (List Byte))
    (h : ∀ l ∈ lines, NL ∉ l ∧ l.getLast? ≠ some CR ∧ l.length < maxScanTokenSize) :
    scanLines (lines.flatMap (fun l => l ++ [NL])) = lines := by
  unfold scanLines
  induction lines with
  | nil => simp [scanFrom]
  | cons l ls ih =>
    obtain ⟨h1, h2, h3⟩ := h l (List.mem_cons_self _ _)
    rw [List.flatMap_cons, List.append_assoc, List.singleton_append, scanFrom_line h1,
      if_neg (by simpa using h3), ih (fun x hx => h x (List.mem_cons_of_mem _ hx))]
    simp [dropCR, h2]

/-- A line of `maxScanTokenSize` bytes or more ends the scan: neither it nor
any later line is delivered. -/
theorem scanLines_tooLong {l : List Byte} (h : NL ∉ l) (hlen : maxScanTokenSize ≤ l.length)
    (rest : List Byte) : scanLines (l ++ NL :: rest) = [] := by
  rw [scanLines, scanFrom_line h, if_pos (by simpa using hlen)]

theorem trimFinal_cons (a : List Byte) {pieces : List (List Byte)} (h : pieces ≠ []) :
    trimFinal (a :: pieces) = a :: trimFinal pieces := by
  cases pieces with
  | nil => exact absurd rfl h
  | cons b rest =>
    unfold trimFinal
    rw [List.getLast?_cons_cons]
    split <;> simp

theorem joinPending_nil (pieces : List (List Byte)) : joinPending [] pieces = pieces := by
  cases pieces <;> simp [joinPending]

/-- The scanner against the plain lines: when no line reaches the token limit,
the scanner delivers the lines of the content, each without one trailing
carriage return. -/
theorem scanFrom_eq (data cur : List Byte)
    (h : ∀ l ∈ trimFinal (joinPending cur (bytesSplit NL data)), l.length < maxScanTokenSize) :
    scanFrom data cur = (trimFinal (joinPending cur (bytesSplit NL data))).map dropCR := by
  induction data generalizing cur with
  | nil =>
    by_cases hc : cur = []
    · subst hc
      simp [scanFrom, bytesSplit, joinPending, trimFinal]
    · have ht : trimFinal (joinPending cur (bytesSplit NL [])) = [cur] := by
        simp [bytesSplit, joinPending, trimFinal, hc]
      rw [ht] at h ⊢
      have hlt := h cur (List.mem_singleton.2 rfl)
      simp [scanFrom, hc, Nat.not_le.2 hlt]
  | cons c cs ih =>
    by_cases hcn : c = NL
    · subst hcn
      have ht : trimFinal (joinPending cur (bytesSplit NL (NL :: cs)))
          = cur :: trimFinal (bytesSplit NL cs) := by
        rw [bytesSplit_cons_sep]
        simp only [joinPending, List.append_nil]
        exact trimFinal_cons cur (bytesSplit_ne_nil NL cs)
      rw [ht] at h ⊢
      have hlt := h cur (List.mem_cons_self _ _)
      have hih := ih [] (by
        rw [joinPending_nil]
        exact fun l hl => h l (List.mem_cons_of_mem _ hl))
      rw [joinPending_nil] at hih
      rw [scanFrom, if_pos rfl, if_neg (Nat.not_le.2 hlt), hih]
      rfl
    · have hj : joinPending cur (bytesSplit NL (c :: cs))
          = joinPending (cur ++ [c]) (bytesSplit NL cs) := by
        rw [bytesSplit_cons_ne hcn]
        have hne := bytesSplit_ne_nil NL cs
        cases hs : bytesSplit NL cs with
        | nil => exact absurd hs hne
        | cons piece pieces => simp [joinPending]
      rw [hj] at h ⊢
      rw [scanFrom, if_neg hcn]
      exact ih (cur ++ [c]) h

/-- The lines the scanner delivers are the lines of the content, each without
one trailing carriage return, when every line is shorter than the token limit. -/
theorem scanLines_eq_specLines (content : List Byte)
    (h : ∀ l ∈ specLines content, l.length < maxScanTokenSize) :
    scanLines content = (specLines content).map dropCR := by
  have hs := scanFrom_eq content [] (by rw [joinPending_nil]; exact h)
  rw [joinPending_nil] at hs
  exact hs

theorem bytesSplit_terminated (lines : List (List Byte)) (h : ∀ l ∈ lines, NL ∉ l) :
    bytesSplit NL (lines.flatMap (fun l => l ++ [NL])) = lines ++ [[]] := by
  induction lines with
  | nil => simp [bytesSplit]
  | cons l ls ih =>
    rw [List.flatMap_cons, List.append_assoc, List.singleton_append,
      bytesSplit_append_sep (h l (List.mem_cons_self _ _)),
      ih (fun x hx => h x (List.mem_cons_of_mem _ hx))]
    rfl

/-- A content made of newline-terminated lines has exactly those lines. -/
theorem specLines_terminated (lines : List (List Byte)) (h : ∀ l ∈ lines, NL ∉ l) :
    specLines (lines.flatMap (fun l => l ++ [NL])) = lines := by
  rw [specLines, bytesSplit_terminated lines h, trimFinal, List.getLast?_concat, if_pos rfl,
    List.dropLast_concat]

/-- The scan of newline-terminated lines stops, without a trace, at the first
line of `maxScanTokenSize` bytes or more. -/
theorem scanLines_stops_at_long (lines : List (List Byte)) (long : List Byte)
    (after : List (List Byte))
    (h : ∀ l ∈ lines, NL ∉ l ∧ l.length < maxScanTokenSize)
    (hnl : NL ∉ long) (hlong : maxScanTokenSize ≤ long.length) :
    scanLines ((lines ++ long :: after).flatMap (fun l => l ++ [NL])) = lines.map dropCR := by
  unfold scanLines
  induction lines with
  | nil =>
    rw [List.nil_append, List.flatMap_cons, List.append_assoc, List.singleton_append,
      scanFrom_line hnl, if_pos (by simpa using hlong)]
    rfl
  | cons l ls ih =>
    obtain ⟨h1, h2⟩ := h l (List.mem_cons_self _ _)
    rw [List.cons_append, List.flatMap_cons, List.append_assoc, List.singleton_append,
      scanFrom_line h1, if_neg (by simpa using h2),
      ih (fun x hx => h x (List.mem_cons_of_mem _ hx))]
    simp

theorem longLine_no_newline : NL ∉ longLine := by
  unfold longLine
  intro h
  rcases List.mem_append.1 h with h | h
  · exact absurd h (by decide)
  · rcases List.mem_cons.1 h with h | h
    · exact absurd h (by decide)
    · exact absurd (List.mem_replicate.1 h).2 (by decide)

theorem longLine_length : maxScanTokenSize ≤ longLine.length := by
  unfold longLine
  rw [List.length_append, List.length_cons, List.length_replicate]
  omega

theorem parseLine_longLine :
    parseLine longLine = [ascii "a", List.replicate maxScanTokenSize 98] := by
  have h1 : TAB ∉ ascii "a" := by decide
  have h2 : TAB ∉ List.replicate maxScanTokenSize (98 : Byte) :=
    fun h => absurd (List.mem_replicate.1 h).2 (by decide)
  rw [parseLine, longLine, bytesSplit_append_sep h1, bytesSplit_of_not_mem h2]

theorem runWithScanner_of_ok {w : World} {content header : List Byte}
    {data : List (List Byte)} {n s : Nat}
    (hin : w.input = .ok content) (hcreate : w.createErr = none)
    (hw : ∀ x ∈ w.writeFaults, x = none)
    (hscan : scanLines content = header :: data)
    (hidx : getNameAndStartIndexes header = ((n : Int), (s : Int)))
    (hlen : ∀ l ∈ data, max n s < (parseLine l).length) :
    runWithScanner w
      = ({ w with output := some (data.flatMap (fun l =>
            formatLine ((parseLine l).getD n []) ((parseLine l).getD s []) ++ [NL])) },
          Exit.returned) := by
  obtain ⟨f', h1, h2, _⟩ := exhaustFrom_ok n s data ⟨[], w.writeFaults⟩ hw hlen
  have hneg : ¬ ((n : Int) = -1 ∨ (s : Int) = -1) := by omega
  simp only [runWithScanner, createScannerAndLoadWithHeaders, hin, createOutputFile, hcreate,
    Scanner.new, Scanner.Scan, hscan, hidx, exhaustScanner, if_neg hneg, h1, h2]
  simp

theorem runWithScanner_of_lines {w : World} {content header : List Byte}
    {data : List (List Byte)} {n s : Nat}
    (hin : w.input = .ok content) (hcreate : w.createErr = none)
    (hw : ∀ x ∈ w.writeFaults, x = none)
    (hlines : specLines content = header :: data)
    (hshort : ∀ l ∈ header :: data, l.length < maxScanTokenSize)
    (hidx : getNameAndStartIndexes (dropCR header) = ((n : Int), (s : Int)))
    (hlen : ∀ l ∈ data, max n s < (parseLine (dropCR l)).length) :
    runWithScanner w
      = ({ w with output := some (data.flatMap (fun l =>
            formatLine ((parseLine (dropCR l)).getD n []) ((parseLine (dropCR l)).getD s [])
              ++ [NL])) },
          Exit.returned) := by
  have hscan : scanLines content = dropCR header :: data.map dropCR := by
    rw [scanLines_eq_specLines content (by rw [hlines]; exact hshort), hlines]
    rfl
  have hlen2 : ∀ l ∈ data.map dropCR, max n s < (parseLine l).length := by
    intro l hl
    obtain ⟨x, hx, rfl⟩ := List.mem_map.1 hl
    exact hlen x hx
  rw [runWithScanner_of_ok hin hcreate hw hscan hidx hlen2, List.flatMap_map]

theorem runWithScanner_of_missing {w : World} {content : List Byte}
    (hin : w.input = .ok content)
    (hidx : (getNameAndStartIndexes ((scanLines content).headD [])).1 = -1 ∨
      (getNameAndStartIndexes ((scanLines content).headD [])).2 = -1) :
    (w.createErr = none → runWithScanner w
      = ({ w with output := some [] },
          Exit.fatalIndexes (getNameAndStartIndexes ((scanLines content).headD [])).1
            (getNameAndStartIndexes ((scanLines content).headD [])).2)) ∧
    (∀ e, w.createErr = some e → runWithScanner w = (w, Exit.fatalOS e)) := by
  constructor
  · intro hcreate
    cases hscan : scanLines content with
    | nil =>
      rw [hscan] at hidx
      simp only [runWithScanner, createScannerAndLoadWithHeaders, hin, createOutputFile, hcreate,
        Scanner.new, Scanner.Scan, hscan]
      simp only [List.headD_nil] at hidx ⊢
      rw [if_pos hidx]
    | cons header data =>
      rw [hscan] at hidx
      simp only [runWithScanner, createScannerAndLoadWithHeaders, hin, createOutputFile, hcreate,
        Scanner.new, Scanner.Scan, hscan]
      simp only [List.headD_cons] at hidx ⊢
      rw [if_pos hidx]
  · intro e hcreate
    simp only [runWithScanner, createScannerAndLoadWithHeaders, hin, createOutputFile, hcreate]

theorem run_shape (w : World) (content : List Byte)
    (hin : w.input = .ok content) (hcreate : w.createErr = none) :
    ∃ (out : List Byte) (ex : Exit), ∀ old : Option (List Byte),
      runWithScanner { w with output := old } = ({ w with output := some out }, ex) := by
  by_cases hidx : (getNameAndStartIndexes (Scanner.new content).Scan.2.token).1 = -1 ∨
      (getNameAndStartIndexes (Scanner.new content).Scan.2.token).2 = -1
  · refine ⟨[], Exit.fatalIndexes (getNameAndStartIndexes (Scanner.new content).Scan.2.token).1
      (getNameAndStartIndexes (Scanner.new content).Scan.2.token).2, fun old => ?_⟩
    simp only [runWithScanner, createScannerAndLoadWithHeaders, hin, createOutputFile, hcreate]
    rw [if_pos hidx]
  · rcases hex : exhaustScanner (Scanner.new content).Scan.2 ⟨[], w.writeFaults⟩
        (getNameAndStartIndexes (Scanner.new content).Scan.2.token).1
        (getNameAndStartIndexes (Scanner.new content).Scan.2.token).2
      with ⟨sc, f, (_ | err) | ⟨i, l⟩⟩
    · refine ⟨f.content, Exit.returned, fun old => ?_⟩
      simp only [runWithScanner, createScannerAndLoadWithHeaders, hin, createOutputFile, hcreate]
      rw [if_neg hidx]
      simp only [hex]
    · refine ⟨f.content, Exit.fatalExhaust err, fun old => ?_⟩
      simp only [runWithScanner, createScannerAndLoadWithHeaders, hin, createOutputFile, hcreate]
      rw [if_neg hidx]
      simp only [hex]
    · refine ⟨f.content, Exit.panicked i l, fun old => ?_⟩
      simp only [runWithScanner, createScannerAndLoadWithHeaders, hin, createOutputFile, hcreate]
      rw [if_neg hidx]
      simp only [hex]

/-! ## The run as a whole -/

/-- C3 (as the code has it): when the header of a readable input has no field
containing "Name" or none containing "Start", the run ends in a fatal error
before any data line is processed, but after `os.Create`: if the creation
succeeds the output path is left created and empty and the fatal message
carries both indexes, one of them -1; if it fails the run ends with that
error and the output path is untouched. -/
theorem runWithScanner_missingColumn (w : World) (content : List Byte)
    (hin : w.input = .ok content)
    (hmiss : (∀ f ∈ bytesSplit TAB ((scanLines content).headD []), ¬ ascii "Name" <:+: f) ∨
      (∀ f ∈ bytesSplit TAB ((scanLines content).headD []), ¬ ascii "Start" <:+: f)) :
    ((getNameAndStartIndexes ((scanLines content).headD [])).1 = -1 ∨
      (getNameAndStartIndexes ((scanLines content).headD [])).2 = -1) ∧
    (w.createErr = none → runWithScanner w
      = ({ w with output := some [] },
          Exit.fatalIndexes (getNameAndStartIndexes ((scanLines content).headD [])).1
            (getNameAndStartIndexes ((scanLines content).headD [])).2)) ∧
    (∀ e, w.createErr = some e → runWithScanner w = (w, Exit.fatalOS e)) := by
  have hidx : (getNameAndStartIndexes ((scanLines content).headD [])).1 = -1 ∨
      (getNameAndStartIndexes ((scanLines content).headD [])).2 = -1 := by
    rcases hmiss with h | h
    · exact Or.inl ((findIndexOfString_spec _ _).2.2 h)
    · exact Or.inr ((findIndexOfString_spec _ _).2.2 h)
  exact ⟨hidx, runWithScanner_of_missing hin hidx⟩

theorem runWithScanner_missingColumn_witness :
    ((getNameAndStartIndexes ((scanLines (ascii "Title\tBegin\nx\ty\n")).headD [])).1 = -1 ∨
      (getNameAndStartIndexes ((scanLines (ascii "Title\tBegin\nx\ty\n")).headD [])).2 = -1) ∧
    ((World.plain (ascii "Title\tBegin\nx\ty\n") (some (ascii "old"))).createErr = none →
      runWithScanner (World.plain (ascii "Title\tBegin\nx\ty\n") (some (ascii "old")))
      = ({ World.plain (ascii "Title\tBegin\nx\ty\n") (some (ascii "old")) with output := some [] },
          Exit.fatalIndexes
            (getNameAndStartIndexes ((scanLines (ascii "Title\tBegin\nx\ty\n")).headD [])).1
            (getNameAndStartIndexes ((scanLines (ascii "Title\tBegin\nx\ty\n")).headD [])).2)) ∧
    (∀ e, (World.plain (ascii "Title\tBegin\nx\ty\n") (some (ascii "old"))).createErr = some e →
      runWithScanner (World.plain (ascii "Title\tBegin\nx\ty\n") (some (ascii "old")))
        = (World.plain (ascii "Title\tBegin\nx\ty\n") (some (ascii "old")), Exit.fatalOS e)) :=
  runWithScanner_missingColumn (World.plain (ascii "Title\tBegin\nx\ty\n") (some (ascii "old")))
    (ascii "Title\tBegin\nx\ty\n") rfl (Or.inl (by decide))

/-- C3, as stated, fails: with the header `Title\tBegin` no field contains
"Name" or "Start", and the run ends in the fatal error of the index check, yet
an output path holding "old" is left truncated to empty and an absent output
path is left created. -/
theorem runWithScanner_missingColumn_creates_output :
    (∀ f ∈ bytesSplit TAB ((scanLines (ascii "Title\tBegin\nx\ty\n")).headD []),
      ¬ ascii "Name" <:+: f ∧ ¬ ascii "Start" <:+: f) ∧
    (runWithScanner (World.plain (ascii "Title\tBegin\nx\ty\n") (some (ascii "old")))).2
      = Exit.fatalIndexes (-1) (-1) ∧
    (runWithScanner (World.plain (ascii "Title\tBegin\nx\ty\n") (some (ascii "old")))).1.output
      = some [] ∧
    (runWithScanner (World.plain (ascii "Title\tBegin\nx\ty\n") none)).1.output = some [] := by
  decide

/-- C4 (as the code has it): for a readable input whose lines, the pieces
between its newlines, are each shorter than 65536 bytes and are a header
followed by data lines, one trailing carriage return of a line not being part
of it, the header giving the indexes `(n, s)`, every data line having more than
`max n s` fields, the output created and no write failing, the run returns and
the output file holds exactly, in input order, `formatLine fields[n] fields[s]`
and a newline for each data line, and nothing for the header. -/
theorem runWithScanner_output (w : World) (content header : List Byte)
    (data : List (List Byte)) (n s : Nat)
    (hin : w.input = .ok content) (hcreate : w.createErr = none)
    (hw : ∀ x ∈ w.writeFaults, x = none)
    (hlines : specLines content = header :: data)
    (hshort : ∀ l ∈ header :: data, l.length < maxScanTokenSize)
    (hidx : getNameAndStartIndexes (dropCR header) = ((n : Int), (s : Int)))
    (hlen : ∀ l ∈ data, max n s < (parseLine (dropCR l)).length) :
    runWithScanner w
      = ({ w with output := some (data.flatMap (fun l =>
            formatLine ((parseLine (dropCR l)).getD n []) ((parseLine (dropCR l)).getD s [])
              ++ [NL])) },
          Exit.returned) :=
  runWithScanner_of_lines hin hcreate hw hlines hshort hidx hlen

theorem runWithScanner_output_witness :
    getNameAndStartIndexes (ascii "Name\tStart") = (0, 1) ∧
    runWithScanner (World.plain (ascii "Name\tStart\nEpisode One\t01:23:45.678\n") none)
      = (World.plain (ascii "Name\tStart\nEpisode One\t01:23:45.678\n")
          (some (ascii "01:23:45\tEpisode One\n")), Exit.returned) :=
  ⟨by decide,
   runWithScanner_output (World.plain (ascii "Name\tStart\nEpisode One\t01:23:45.678\n") none)
    (ascii "Name\tStart\nEpisode One\t01:23:45.678\n") (ascii "Name\tStart")
    [ascii "Episode One\t01:23:45.678"] 0 1 rfl rfl (by decide) (by decide) (by decide)
    (by decide) (by decide)⟩

/-- C4, as stated, fails. First input: the header `Name\tStart` and one data
line of two fields whose second field has 65536 bytes; the scan ends at that
line without an error, the run returns and the output is empty, not the
formatted line. Second input: the header `Start\tName` and the data line
`1.5\tx\r`; the output is `1\tx\n`, the carriage return of the name field is
gone. -/
theorem runWithScanner_output_fails :
    (specLines ([ascii "Name\tStart", longLine].flatMap (fun l => l ++ [NL]))
        = [ascii "Name\tStart", longLine] ∧
      getNameAndStartIndexes (ascii "Name\tStart") = (0, 1) ∧
      max 0 1 < (parseLine longLine).length ∧
      (runWithScanner (World.plain
        ([ascii "Name\tStart", longLine].flatMap (fun l => l ++ [NL])) none)).2
        = Exit.returned ∧
      (runWithScanner (World.plain
        ([ascii "Name\tStart", longLine].flatMap (fun l => l ++ [NL])) none)).1.output
        = some [] ∧
      formatLine ((parseLine longLine).getD 0 []) ((parseLine longLine).getD 1 []) ++ [NL]
        ≠ []) ∧
    (specLines (ascii "Start\tName\n1.5\tx\r\n") = [ascii "Start\tName", ascii "1.5\tx\r"] ∧
      getNameAndStartIndexes (ascii "Start\tName") = (1, 0) ∧
      max 1 0 < (parseLine (ascii "1.5\tx\r")).length ∧
      (runWithScanner (World.plain (ascii "Start\tName\n1.5\tx\r\n") none)).1.output
        = some (ascii "1\tx\n") ∧
      formatLine ((parseLine (ascii "1.5\tx\r")).getD 1 [])
          ((parseLine (ascii "1.5\tx\r")).getD 0 []) ++ [NL]
        = ascii "1\tx\r\n") := by
  have hscan : scanLines ([ascii "Name\tStart", longLine].flatMap (fun l => l ++ [NL]))
      = ascii "Name\tStart" :: [] :=
    (scanLines_stops_at_long [ascii "Name\tStart"] longLine [] (by decide)
      longLine_no_newline longLine_length).trans (by decide)
  have hrun := runWithScanner_of_ok
    (w := World.plain ([ascii "Name\tStart", longLine].flatMap (fun l => l ++ [NL])) none)
    (n := 0) (s := 1) rfl rfl (by decide) hscan (by decide) (by decide)
  refine ⟨⟨?_, by decide, ?_, ?_, ?_, by simp⟩, by decide⟩
  · refine specLines_terminated [ascii "Name\tStart", longLine] ?_
    intro l hl
    rcases List.mem_cons.1 hl with e | e
    · subst e
      decide
    · rw [List.mem_singleton.1 e]
      exact longLine_no_newline
  · rw [parseLine_longLine]
    decide
  · rw [hrun]
  · rw [hrun]
    rfl

/-- C9: for a readable input and an output path that can be created, what the
run leaves at the output path and how it ends do not depend on what the output
path held before, and running again on the world the first run left gives the
same output content again. -/
theorem runWithScanner_idempotent (w : World) (content : List Byte)
    (old : Option (List Byte))
    (hin : w.input = .ok content) (hcreate : w.createErr = none) :
    (runWithScanner { w with output := old }).1.output = (runWithScanner w).1.output ∧
    (runWithScanner { w with output := old }).2 = (runWithScanner w).2 ∧
    runWithScanner (runWithScanner w).1 = runWithScanner w := by
  obtain ⟨out, ex, h⟩ := run_shape w content hin hcreate
  have hw : runWithScanner w = ({ w with output := some out }, ex) := h w.output
  refine ⟨?_, ?_, ?_⟩
  · rw [h old, hw]
  · rw [h old, hw]
  · rw [hw]
    exact h (some out)

theorem runWithScanner_idempotent_witness :
    (runWithScanner { World.plain (ascii "Name\tStart\nEpisode One\t01:23:45.678\n") none
        with output := some (ascii "stale\n") }).1.output
      = (runWithScanner (World.plain (ascii "Name\tStart\nEpisode One\t01:23:45.678\n") none)).1.output ∧
    (runWithScanner { World.plain (ascii "Name\tStart\nEpisode One\t01:23:45.678\n") none
        with output := some (ascii "stale\n") }).2
      = (runWithScanner (World.plain (ascii "Name\tStart\nEpisode One\t01:23:45.678\n") none)).2 ∧
    runWithScanner
        (runWithScanner (World.plain (ascii "Name\tStart\nEpisode One\t01:23:45.678\n") none)).1
      = runWithScanner (World.plain (ascii "Name\tStart\nEpisode One\t01:23:45.678\n") none) :=
  runWithScanner_idempotent (World.plain (ascii "Name\tStart\nEpisode One\t01:23:45.678\n") none)
    (ascii "Name\tStart\nEpisode One\t01:23:45.678\n") (some (ascii "stale\n")) rfl rfl

theorem subset_of_mem_bytesSplit {sep : Byte} {s piece : List Byte}
    (h : piece ∈ bytesSplit sep s) : piece ⊆ s := by
  induction s generalizing piece with
  | nil =>
    simp [bytesSplit] at h
    simp [h]
  | cons c cs ih =>
    by_cases hc : c = sep
    · subst hc
      rw [bytesSplit_cons_sep] at h
      rcases List.mem_cons.1 h with h | h
      · simp [h]
      · exact fun x hx => List.mem_cons_of_mem _ (ih h hx)
    · rw [bytesSplit_cons_ne hc] at h
      have hne := bytesSplit_ne_nil sep cs
      cases hs : bytesSplit sep cs with
      | nil => exact absurd hs hne
      | cons p ps =>
        rw [hs] at h ih
        simp only [List.headD_cons, List.tail_cons] at h
        rcases List.mem_cons.1 h with h | h
        · subst h
          intro x hx
          rcases List.mem_cons.1 hx with e | e
          · exact e ▸ List.mem_cons_self _ _
          · exact List.mem_cons_of_mem _ (ih (List.mem_cons_self _ _) e)
        · exact fun x hx => List.mem_cons_of_mem _ (ih (List.mem_cons_of_mem _ h) hx)

theorem not_mem_field {line : List Byte} (h : NL ∉ line) (n : Nat) :
    NL ∉ (parseLine line).getD n [] := by
  rw [List.getD_eq_getElem?_getD]
  cases hf : (parseLine line)[n]? with
  | none => simp
  | some x => exact fun hx => h (subset_of_mem_bytesSplit (List.getElem?_mem hf) hx)

theorem count_NL_formatLine {name start : List Byte} (hn : NL ∉ name) (hs : NL ∉ start) :
    (formatLine name start ++ [NL]).count NL = 1 := by
  have ht : NL ∉ start.takeWhile (fun c => c != DOT) := not_mem_takeWhile_of_not_mem _ hs
  have hne : (TAB == NL) = false := by decide
  rw [formatLine_eq, List.count_append, List.count_append, List.count_cons,
    List.count_eq_zero_of_not_mem ht, List.count_eq_zero_of_not_mem hn, hne]
  simp

theorem count_NL_output (n s : Nat) (data : List (List Byte)) (h : ∀ l ∈ data, NL ∉ l) :
    (data.flatMap (fun l =>
      formatLine ((parseLine l).getD n []) ((parseLine l).getD s []) ++ [NL])).count NL
      = data.length := by
  induction data with
  | nil => simp
  | cons l ls ih =>
    have hl := h l (List.mem_cons_self _ _)
    rw [List.flatMap_cons, List.count_append,
      count_NL_formatLine (not_mem_field hl n) (not_mem_field hl s),
      ih (fun x hx => h x (List.mem_cons_of_mem _ hx))]
    simp [Nat.add_comm]

/-- C5 (as the code has it): when every line of the input, the pieces between
its newlines, is shorter than 65536 bytes, the header gives both indexes,
every data line has more than `max n s` fields, the output is created and no
write fails, the run returns and the number of newline-terminated lines in the
output file is the number of input lines minus one. -/
theorem runWithScanner_lineCount (w : World) (content header : List Byte)
    (data : List (List Byte)) (n s : Nat)
    (hin : w.input = .ok content) (hcreate : w.createErr = none)
    (hw : ∀ x ∈ w.writeFaults, x = none)
    (hlines : specLines content = header :: data)
    (hshort : ∀ l ∈ header :: data, l.length < maxScanTokenSize)
    (hidx : getNameAndStartIndexes (dropCR header) = ((n : Int), (s : Int)))
    (hlen : ∀ l ∈ data, max n s < (parseLine (dropCR l)).length) :
    ∃ out : List Byte, (runWithScanner w).1.output = some out ∧
      (runWithScanner w).2 = Exit.returned ∧
      out.count NL = (specLines content).length - 1 := by
  have hscan : scanLines content = dropCR header :: data.map dropCR := by
    rw [scanLines_eq_specLines content (by rw [hlines]; exact hshort), hlines]
    rfl
  have hnl : ∀ l ∈ data.map dropCR, NL ∉ l := fun l hl =>
    not_mem_scanLines (show l ∈ scanLines content by
      rw [hscan]; exact List.mem_cons_of_mem _ hl)
  refine ⟨data.flatMap (fun l =>
    formatLine ((parseLine (dropCR l)).getD n []) ((parseLine (dropCR l)).getD s []) ++ [NL]),
    ?_, ?_, ?_⟩
  · rw [runWithScanner_of_lines hin hcreate hw hlines hshort hidx hlen]
  · rw [runWithScanner_of_lines hin hcreate hw hlines hshort hidx hlen]
  · have hc := count_NL_output n s (data.map dropCR) hnl
    rw [List.flatMap_map, List.length_map] at hc
    rw [hc, hlines]
    simp

theorem runWithScanner_lineCount_witness :
    ∃ out : List Byte,
      (runWithScanner (World.plain (ascii "Start\tName\n1.5\ta\n2.5\tb\r\n3\tc") none)).1.output
        = some out ∧
      (runWithScanner (World.plain (ascii "Start\tName\n1.5\ta\n2.5\tb\r\n3\tc") none)).2
        = Exit.returned ∧
      out.count NL = (specLines (ascii "Start\tName\n1.5\ta\n2.5\tb\r\n3\tc")).length - 1 :=
  runWithScanner_lineCount (World.plain (ascii "Start\tName\n1.5\ta\n2.5\tb\r\n3\tc") none)
    (ascii "Start\tName\n1.5\ta\n2.5\tb\r\n3\tc") (ascii "Start\tName")
    [ascii "1.5\ta", ascii "2.5\tb\r", ascii "3\tc"] 1 0 rfl rfl (by decide) (by decide)
    (by decide) (by decide) (by decide)

/-- C5, as stated, fails: an input of two lines whose header has neither
column yields an output of no line; an input of four lines whose second data
line is too short yields an output of one line; and an input of four lines
whose second data line has 65536 bytes in its second field yields an output of
one line, the run returning without an error. -/
theorem runWithScanner_lineCount_fails :
    ((specLines (ascii "Title\tBegin\nx\ty\n")).length - 1 = 1 ∧
      (runWithScanner (World.plain (ascii "Title\tBegin\nx\ty\n") none)).1.output = some [] ∧
      ([] : List Byte).count NL = 0) ∧
    ((specLines (ascii "Name\tStart\na\tb\nc\nd\te\n")).length - 1 = 3 ∧
      (runWithScanner (World.plain (ascii "Name\tStart\na\tb\nc\nd\te\n") none)).1.output
        = some (ascii "b\ta\n") ∧
      (ascii "b\ta\n").count NL = 1) ∧
    ((specLines ([ascii "Name\tStart", ascii "a\tb", longLine, ascii "c\td"].flatMap
          (fun l => l ++ [NL]))).length - 1 = 3 ∧
      (runWithScanner (World.plain ([ascii "Name\tStart", ascii "a\tb", longLine,
          ascii "c\td"].flatMap (fun l => l ++ [NL])) none)).2 = Exit.returned ∧
      (runWithScanner (World.plain ([ascii "Name\tStart", ascii "a\tb", longLine,
          ascii "c\td"].flatMap (fun l => l ++ [NL])) none)).1.output
        = some (ascii "b\ta\n")) := by
  have hscan : scanLines ([ascii "Name\tStart", ascii "a\tb", longLine, ascii "c\td"].flatMap
      (fun l => l ++ [NL])) = ascii "Name\tStart" :: [ascii "a\tb"] :=
    (scanLines_stops_at_long [ascii "Name\tStart", ascii "a\tb"] longLine [ascii "c\td"]
      (by decide) longLine_no_newline longLine_length).trans (by decide)
  have hrun := runWithScanner_of_ok
    (w := World.plain ([ascii "Name\tStart", ascii "a\tb", longLine, ascii "c\td"].flatMap
      (fun l => l ++ [NL])) none)
    (n := 0) (s := 1) rfl rfl (by decide) hscan (by decide) (by decide)
  have hspec : specLines ([ascii "Name\tStart", ascii "a\tb", longLine, ascii "c\td"].flatMap
      (fun l => l ++ [NL])) = [ascii "Name\tStart", ascii "a\tb", longLine, ascii "c\td"] := by
    refine specLines_terminated _ ?_
    intro l hl
    simp only [List.mem_cons, List.mem_singleton, List.not_mem_nil, or_false] at hl
    rcases hl with e | e | e | e
    · subst e; decide
    · subst e; decide
    · subst e; exact longLine_no_newline
    · subst e; decide
  refine ⟨by decide, by decide, ?_, ?_, ?_⟩
  · rw [hspec]
    rfl
  · rw [hrun]
  · rw [hrun]
    decide

/-- C6: with column indexes `n` and `s`, no write failing, and a data line
`bad` that has fewer than `max n s + 1` fields while every line before it has
enough, `exhaustScanner` panics on an index out of range at `bad`: the file
holds exactly the formatted lines of the lines before `bad`, nothing of `bad`
or of any later line, and the later lines are left unread. -/
theorem exhaustScanner_shortLine (tok : List Byte) (pre : List (List Byte))
    (bad : List Byte) (post : List (List Byte)) (f : OutFile) (n s : Nat)
    (hf : ∀ x ∈ f.faults, x = none)
    (hpre : ∀ l ∈ pre, max n s + 1 ≤ (parseLine l).length)
    (hbad : (parseLine bad).length < max n s + 1) :
    ∃ (idx : Nat) (f' : OutFile), (idx = n ∨ idx = s) ∧ (parseLine bad).length ≤ idx ∧
      exhaustScanner ⟨pre ++ bad :: post, tok⟩ f n s
        = (⟨post, bad⟩, f', ExhaustEnd.panicked idx (parseLine bad).length) ∧
      f'.content = f.content ++ pre.flatMap (fun l =>
        formatLine ((parseLine l).getD n []) ((parseLine l).getD s []) ++ [NL]) := by
  obtain ⟨f', h1, h2, _⟩ := exhaustFrom_ok n s pre f hf (fun l hl => by
    have := hpre l hl
    omega)
  have happ := exhaustFrom_append h1 (bad :: post)
  by_cases hn : (parseLine bad).length ≤ n
  · refine ⟨n, f', Or.inl rfl, hn, ?_, h2⟩
    rw [exhaustScanner, happ, exhaustFrom_panic_name post f' (index_of_le hn)]
  · have hs : (parseLine bad).length ≤ s := by omega
    refine ⟨s, f', Or.inr rfl, hs, ?_, h2⟩
    rw [exhaustScanner, happ,
      exhaustFrom_panic_start post f' (index_of_lt (by omega)) (index_of_le hs)]

theorem exhaustScanner_shortLine_witness :
    ∃ (idx : Nat) (f' : OutFile), (idx = 0 ∨ idx = 1) ∧ (parseLine (ascii "c")).length ≤ idx ∧
      exhaustScanner ⟨[ascii "a\tb"] ++ ascii "c" :: [ascii "d\te"], ascii "Name\tStart"⟩
          ⟨[], []⟩ ((0 : Nat) : Int) ((1 : Nat) : Int)
        = (⟨[ascii "d\te"], ascii "c"⟩, f', ExhaustEnd.panicked idx (parseLine (ascii "c")).length) ∧
      f'.content = ([] : List Byte) ++ [ascii "a\tb"].flatMap (fun l =>
        formatLine ((parseLine l).getD 0 []) ((parseLine l).getD 1 []) ++ [NL]) :=
  exhaustScanner_shortLine (ascii "Name\tStart") [ascii "a\tb"] (ascii "c") [ascii "d\te"]
    ⟨[], []⟩ 0 1 (by decide) (by decide) (by decide)

theorem exhaustScanner_shortLine_example :
    exhaustScanner ⟨[ascii "a\tb", ascii "c", ascii "d\te"], ascii "Name\tStart"⟩ ⟨[], []⟩ 0 1
      = (⟨[ascii "d\te"], ascii "c"⟩, ⟨ascii "b\ta\n", []⟩, ExhaustEnd.panicked 1 1) := by
  decide

/-- A failed `Write` returns the number of bytes that reached the file, never
more than it was given. -/
theorem Write_fail {f f1 : OutFile} {b : List Byte} {written : Nat} {e : OSError}
    (h : f.Write b = (f1, written, some e)) :
    written ≤ b.length ∧ f1.content = f.content ++ b.take written := by
  rcases f with ⟨content, faults⟩
  cases faults with
  | nil => simp [OutFile.Write] at h
  | cons x rest =>
    cases x with
    | none => simp [OutFile.Write] at h
    | some ke =>
      rcases ke with ⟨k, e'⟩
      simp only [OutFile.Write, Prod.mk.injEq] at h
      obtain ⟨h1, h2, _⟩ := h
      subst h1 h2
      refine ⟨Nat.min_le_right _ _, ?_⟩
      simp only [List.append_cancel_left_eq]
      rw [List.take_eq_take]
      simp [Nat.min_comm, Nat.min_assoc]

/-- C8 (as the code has it): when the lines before `line` were processed
without error and a write fails at `line`, be it the write of the formatted
line or the write of the newline after it, `exhaustScanner` returns an error at
once: the file is as that failed write left it, the later lines are left
unread, and the error carries the cause together with the count the failed
`Write` returned, the number of bytes written, which is at most the length
attempted. -/
theorem exhaustScanner_writeFails (tok : List Byte) (pre : List (List Byte))
    (line : List Byte) (rest : List (List Byte)) (f f' f1 : OutFile) (sc : Scanner)
    (nameIdx startIdx : Int) (name start : List Byte) (written : Nat) (e : OSError)
    (hpre : exhaustScanner ⟨pre, tok⟩ f nameIdx startIdx = (sc, f', ExhaustEnd.returned none))
    (hn : index (parseLine line) nameIdx = some name)
    (hs : index (parseLine line) startIdx = some start)
    (hfail : f'.Write (formatLine name start) = (f1, written, some e) ∨
      ∃ fm w1, f'.Write (formatLine name start) = (fm, w1, none) ∧
        fm.Write [NL] = (f1, written, some e)) :
    (exhaustScanner ⟨pre ++ line :: rest, tok⟩ f nameIdx startIdx
        = (⟨rest, line⟩, f1, ExhaustEnd.returned (some (ExhaustError.failedToWrite written e))) ∧
      written ≤ (formatLine name start).length ∧
      f1.content = f'.content ++ (formatLine name start).take written) ∨
    (exhaustScanner ⟨pre ++ line :: rest, tok⟩ f nameIdx startIdx
        = (⟨rest, line⟩, f1,
            ExhaustEnd.returned (some (ExhaustError.failedToWriteNewLine written e))) ∧
      written ≤ 1 ∧
      f1.content = f'.content ++ formatLine name start ++ [NL].take written) := by
  have happ := exhaustFrom_append (show exhaustFrom nameIdx startIdx pre f
    = (sc, f', ExhaustEnd.returned none) from hpre) (line :: rest)
  rcases hfail with hw | ⟨fm, w1, hw, hnl⟩
  · left
    refine ⟨?_, (Write_fail hw).1, (Write_fail hw).2⟩
    rw [exhaustScanner]
    exact happ.trans (exhaustFrom_write_fail rest hn hs hw)
  · right
    have hfm : fm.content = f'.content ++ formatLine name start := by
      rcases f' with ⟨content, faults⟩
      cases faults with
      | nil =>
        simp only [OutFile.Write, Prod.mk.injEq] at hw
        rw [← hw.1]
      | cons x xs =>
        cases x with
        | none =>
          simp only [OutFile.Write, Prod.mk.injEq] at hw
          rw [← hw.1]
        | some ke => simp [OutFile.Write] at hw
    refine ⟨?_, (Write_fail hnl).1, ?_⟩
    · rw [exhaustScanner]
      exact happ.trans (exhaustFrom_newline_fail rest hn hs hw hnl)
    · rw [(Write_fail hnl).2, hfm]

theorem exhaustScanner_writeFails_witness :
    (exhaustScanner ⟨[ascii "a\tb"] ++ ascii "c\td" :: [ascii "e\tf"], []⟩
          ⟨[], [none, none, some (2, ⟨28⟩)]⟩ 0 1
        = (⟨[ascii "e\tf"], ascii "c\td"⟩, ⟨ascii "b\ta\nd\t", []⟩,
            ExhaustEnd.returned (some (ExhaustError.failedToWrite 2 ⟨28⟩))) ∧
      2 ≤ (formatLine (ascii "c") (ascii "d")).length ∧
      (⟨ascii "b\ta\nd\t", []⟩ : OutFile).content
        = (⟨ascii "b\ta\n", [some (2, ⟨28⟩)]⟩ : OutFile).content
          ++ (formatLine (ascii "c") (ascii "d")).take 2) ∨
    (exhaustScanner ⟨[ascii "a\tb"] ++ ascii "c\td" :: [ascii "e\tf"], []⟩
          ⟨[], [none, none, some (2, ⟨28⟩)]⟩ 0 1
        = (⟨[ascii "e\tf"], ascii "c\td"⟩, ⟨ascii "b\ta\nd\t", []⟩,
            ExhaustEnd.returned (some (ExhaustError.failedToWriteNewLine 2 ⟨28⟩))) ∧
      2 ≤ 1 ∧
      (⟨ascii "b\ta\nd\t", []⟩ : OutFile).content
        = (⟨ascii "b\ta\n", [some (2, ⟨28⟩)]⟩ : OutFile).content
          ++ formatLine (ascii "c") (ascii "d") ++ [NL].take 2) :=
  exhaustScanner_writeFails [] [ascii "a\tb"] (ascii "c\td") [ascii "e\tf"]
    ⟨[], [none, none, some (2, ⟨28⟩)]⟩ ⟨ascii "b\ta\n", [some (2, ⟨28⟩)]⟩
    ⟨ascii "b\ta\nd\t", []⟩ ⟨[], []⟩ 0 1 (ascii "c") (ascii "d") 2 ⟨28⟩
    (by decide) (by decide) (by decide) (Or.inl (by decide))

/-- C8, as stated, fails: a write of the three bytes `b\ta` that fails with
nothing written is reported with the count 0, one that fails after two bytes
with the count 2, and a failed write of the newline with the count 0: the
count in the error is the number of bytes written, not the length attempted. -/
theorem exhaustScanner_reports_written :
    (formatLine (ascii "a") (ascii "b")).length = 3 ∧
    exhaustScanner ⟨[ascii "a\tb", ascii "c\td"], []⟩ ⟨[], [some (0, ⟨28⟩)]⟩ 0 1
      = (⟨[ascii "c\td"], ascii "a\tb"⟩, ⟨[], []⟩,
          ExhaustEnd.returned (some (ExhaustError.failedToWrite 0 ⟨28⟩))) ∧
    exhaustScanner ⟨[ascii "a\tb", ascii "c\td"], []⟩ ⟨[], [some (2, ⟨28⟩)]⟩ 0 1
      = (⟨[ascii "c\td"], ascii "a\tb"⟩, ⟨ascii "b\t", []⟩,
          ExhaustEnd.returned (some (ExhaustError.failedToWrite 2 ⟨28⟩))) ∧
    exhaustScanner ⟨[ascii "a\tb", ascii "c\td"], []⟩ ⟨[], [none, some (0, ⟨28⟩)]⟩ 0 1
      = (⟨[ascii "c\td"], ascii "a\tb"⟩, ⟨ascii "b\ta", []⟩,
          ExhaustEnd.returned (some (ExhaustError.failedToWriteNewLine 0 ⟨28⟩))) := by
  decide

/-- Joining the pieces of a split with the separator gives the bytes back: the
pieces are the separator-delimited fields. -/
theorem bytesJoin_bytesSplit (sep : Byte) (s : List Byte) :
    bytesJoin (bytesSplit sep s) [sep] = s := by
  induction s with
  | nil => simp [bytesSplit, bytesJoin]
  | cons c cs ih =>
    have hne := bytesSplit_ne_nil sep cs
    cases hs : bytesSplit sep cs with
    | nil => exact absurd hs hne
    | cons p ps =>
      rw [hs] at ih
      by_cases hc : c = sep
      · subst hc
        rw [bytesSplit_cons_sep, hs]
        simp [bytesJoin, ih]
      · rw [bytesSplit_cons_ne hc, hs]
        cases ps with
        | nil =>
          simp only [bytesJoin] at ih
          simp [bytesJoin, ih]
        | cons q qs =>
          simp only [bytesJoin] at ih
          simp [bytesJoin, ih]

end CsvToDescription
